import Mathlib

/-!
Verification of the `no_std_strings` fixed-capacity string library.

The library's core type `tstr<N>` is a fixed `[u8; N]` buffer: byte 0 holds
the byte length of the stored content, bytes `1 .. len+1` hold UTF-8 content.
We embed the buffer as a `List Nat` (each element a byte value), Rust `&str`
values as `List Char` (Unicode scalar values), and each operation of
`src/tiny_internal.rs` as a Lean function on this representation.
Panicking paths are modelled with `Option`/`Except`.
-/

/-- Byte size of the UTF-8 encoding of a character; models Rust
`char::len_utf8`. -/
def utf8Size (c : Char) : Nat :=
  if c.toNat < 128 then 1
  else if c.toNat < 2048 then 2
  else if c.toNat < 65536 then 3
  else 4

/-- UTF-8 encoding of a character as a byte list; models Rust
`char::encode_utf8` (the first `len_utf8` bytes of the scratch buffer). -/
def encodeChar (c : Char) : List Nat :=
  if c.toNat < 128 then [c.toNat]
  else if c.toNat < 2048 then
    [192 + c.toNat / 64, 128 + c.toNat % 64]
  else if c.toNat < 65536 then
    [224 + c.toNat / 4096, 128 + c.toNat / 64 % 64, 128 + c.toNat % 64]
  else
    [240 + c.toNat / 262144, 128 + c.toNat / 4096 % 64,
     128 + c.toNat / 64 % 64, 128 + c.toNat % 64]

/-- UTF-8 byte sequence of a string (Rust `str::as_bytes` for a `&str`
given as its character list). -/
def utf8Bytes : List Char → List Nat
  | [] => []
  | c :: cs => encodeChar c ++ utf8Bytes cs

/-- Byte length of a string; models Rust `str::len`. -/
def utf8Len (s : List Char) : Nat := (utf8Bytes s).length

/-- Whether a byte is a UTF-8 continuation byte (`0x80 ..= 0xBF`). -/
def isCont (b : Nat) : Bool := 128 ≤ b && b < 192

/-- Decode one UTF-8 character from leading byte `b0` and remaining
bytes `t`: the character and the bytes left over, or `none` on a
malformed head. -/
def decodeOne (b0 : Nat) (t : List Nat) : Option (Char × List Nat) :=
  if b0 < 128 then some (Char.ofNat b0, t)
  else if b0 < 192 then none
  else if b0 < 224 then
    match t with
    | b1 :: t1 =>
      if isCont b1 then some (Char.ofNat ((b0 - 192) * 64 + (b1 - 128)), t1)
      else none
    | [] => none
  else if b0 < 240 then
    match t with
    | b1 :: b2 :: t2 =>
      if isCont b1 && isCont b2 then
        some (Char.ofNat ((b0 - 224) * 4096 + (b1 - 128) * 64 + (b2 - 128)), t2)
      else none
    | _ => none
  else
    match t with
    | b1 :: b2 :: b3 :: t3 =>
      if isCont b1 && isCont b2 && isCont b3 then
        some (Char.ofNat ((b0 - 240) * 262144 + (b1 - 128) * 4096 +
                          (b2 - 128) * 64 + (b3 - 128)), t3)
      else none
    | _ => none

/-- Fuel-indexed decoding loop (the fuel only serves structural
termination; `decodeUtf8` supplies enough for the whole input). -/
def decodeLoop : Nat → List Nat → Option (List Char)
  | _, [] => some []
  | 0, _ :: _ => none
  | fuel + 1, b0 :: t =>
    match decodeOne b0 t with
    | none => none
    | some (c, rest) => (decodeLoop fuel rest).map (fun w => c :: w)

/-- Decode a UTF-8 byte sequence into characters.  Used to model
`core::str::from_utf8_unchecked` / `str::chars` on the stored content;
theorems only rely on it through valid encodings, where it inverts
`utf8Bytes` (see `decodeUtf8_utf8Bytes`). -/
def decodeUtf8 (bs : List Nat) : Option (List Char) := decodeLoop bs.length bs

/-- Byte offsets and characters of a string; models Rust
`str::char_indices` (as the list of all items the iterator yields),
starting from offset `off`. -/
def charIndicesAux (off : Nat) : List Char → List (Nat × Char)
  | [] => []
  | c :: cs => (off, c) :: charIndicesAux (off + utf8Size c) cs

/-- Models `str::char_indices` from offset 0. -/
def charIndices (w : List Char) : List (Nat × Char) := charIndicesAux 0 w

/-- Drop the first `k` bytes of a string, models the slice `&s[k..]` for a
`k` that lies on a character boundary (the only way it is used here). -/
def dropBytes : List Char → Nat → List Char
  | s, 0 => s
  | [], _ + 1 => []
  | c :: cs, k + 1 => dropBytes cs (k + 1 - utf8Size c)

/-- Overwrite `buf[pos .. pos + src.length]` with `src`; models Rust
`buf[pos..pos+src.len()].copy_from_slice(&src)`. -/
def writeBytes (buf : List Nat) (pos : Nat) (src : List Nat) : List Nat :=
  buf.take pos ++ src ++ buf.drop (pos + src.length)

/-- The `tstr<N>` struct of `tiny_internal.rs`: a fixed buffer of `N` bytes
(`chrs.length = N` for well-formed values).  The derived `PartialEq`/`Eq`
of the Rust struct compares the whole `[u8; N]` buffer, which is exactly
the derived `DecidableEq` on the `chrs` field here. -/
structure tstr (N : Nat) where
  chrs : List Nat
deriving DecidableEq

/-- Models `tstr::len`: `self.chrs[0] as usize`. -/
def tstr.len {N : Nat} (x : tstr N) : Nat := x.chrs.getD 0 0

/-- Models `tstr::capacity`: `N - 1`. -/
def tstr.capacity (N : Nat) : Nat := N - 1

/-- Models `tstr::as_bytes`: `&self.chrs[1..self.len()+1]`. -/
def tstr.as_bytes {N : Nat} (x : tstr N) : List Nat :=
  (x.chrs.drop 1).take x.len

/-- Models `tstr::to_str` (`from_utf8_unchecked` over `as_bytes`); on
invalid UTF-8 the Rust call is UB, modelled by the default `[]`. -/
def tstr.toStr {N : Nat} (x : tstr N) : List Char :=
  (decodeUtf8 x.as_bytes).getD []

/-- Models `tstr::charlen`: `self.to_str().chars().count()`. -/
def tstr.charlen {N : Nat} (x : tstr N) : Nat := x.toStr.length

/-- Models `tstr::create` (lines 52-63): zero buffer, copy
`bytes[..limit]` to `chrs[1..limit+1]` with `limit = min(N-1, blen)`,
set `chrs[0] = limit as u8`, then the degenerate-clamp guard
`if chrs[0] == 0 { chrs[0] = blen as u8 }`. -/
def tstr.create (N : Nat) (s : List Char) : tstr N :=
  let bytes := utf8Bytes s
  let blen := bytes.length
  let limit := min (N - 1) blen
  let c1 := writeBytes (List.replicate N 0) 1 (bytes.take limit)
  let c2 := c1.set 0 (limit % 256)
  let c3 := if c2.getD 0 0 == 0 then c2.set 0 (blen % 256) else c2
  ⟨c3⟩

/-- Models `tstr::make` (lines 33-48): panics (`none`) when
`blen >= N`; otherwise the body is byte-for-byte the body of `create`. -/
def tstr.make? (N : Nat) (s : List Char) : Option (tstr N) :=
  if (utf8Bytes s).length ≥ N then none else some (tstr.create N s)

/-- Models `tstr::try_make`: `Err(s)` when `s.len() > N - 1`, else
`Ok(tstr::make(s))` (under the guard `make` cannot panic and its body is
the body of `create`). -/
def tstr.try_make (N : Nat) (s : List Char) : Except (List Char) (tstr N) :=
  if (utf8Bytes s).length > N - 1 then Except.error s else Except.ok (tstr.create N s)

/-- Models `tstr::new`: `tstr::make("")` (for `N ≥ 1` the panic guard of
`make` on the empty string never fires, leaving `create`'s body). -/
def tstr.new (N : Nat) : tstr N := tstr.create N []

/-- The loop of `tstr::push` (lines 138-153) over the characters of `s`,
carrying the buffer, the write position `i` and the consumed byte count
`sci`; returns the final buffer and `sci`. -/
def pushLoop (N : Nat) : List Char → List Nat → Nat → Nat → List Nat × Nat
  | [], chrs, i, sci => (if i < N then chrs.set 0 (i % 256) else chrs, sci)
  | c :: cs, chrs, i, sci =>
    if i + utf8Size c + 1 ≤ N then
      pushLoop N cs (writeBytes chrs (i + 1) (encodeChar c)) (i + utf8Size c)
        (sci + utf8Size c)
    else
      (chrs.set 0 (i % 256), sci)

/-- Models `tstr::push` (lines 131-154): early return of `s` when
`s.len() < 1`, otherwise run the loop from `i = self.len()` and return the
new state together with the unconsumed remainder `&s[sci..]`. -/
def tstr.push {N : Nat} (x : tstr N) (s : List Char) : tstr N × List Char :=
  if utf8Len s < 1 then (x, s)
  else
    let r := pushLoop N s x.chrs x.len 0
    (⟨r.1⟩, dropBytes s r.2)

/-- Models `tstr::set` (lines 114-126): look up character `i` of
`to_str()` by `char_indices().nth(i)`; overwrite in place only when the
encoded widths agree, returning the success flag. -/
def tstr.set {N : Nat} (x : tstr N) (i : Nat) (c : Char) : tstr N × Bool :=
  match (charIndices x.toStr).get? i with
  | some (bi, rc) =>
    if utf8Size c == utf8Size rc then
      (⟨writeBytes x.chrs (bi + 1) (encodeChar c)⟩, true)
    else (x, false)
  | none => (x, false)

/-- Models `tstr::truncate` (lines 183-188): if character `n` exists, set
the length byte to its byte offset, else no-op. -/
def tstr.truncate {N : Nat} (x : tstr N) (n : Nat) : tstr N :=
  match (charIndices x.toStr).get? n with
  | some (bi, _) => ⟨x.chrs.set 0 (bi % 256)⟩
  | none => x

/-- Models `str::is_char_boundary` on the stored content. -/
def isCharBoundary (bs : List Nat) (n : Nat) : Bool :=
  if n == 0 then true
  else
    match bs.get? n with
    | none => n == bs.length
    | some b => !(isCont b)

/-- Models `tstr::truncate_bytes` (lines 192-197): only acts when
`n < len`; panics (`none`) when `n` is not a character boundary. -/
def tstr.truncate_bytes {N : Nat} (x : tstr N) (n : Nat) : Option (tstr N) :=
  if n < x.len then
    if isCharBoundary x.as_bytes n then some ⟨x.chrs.set 0 (n % 256)⟩ else none
  else some x

/-- Models `tstr::clear`: `self.chrs[0] = 0`. -/
def tstr.clear {N : Nat} (x : tstr N) : tstr N := ⟨x.chrs.set 0 0⟩

/-- Byte action of `make_ascii_lowercase`: `if 65 <= b && b <= 90 { b |= 32 }`. -/
def lowerByte (b : Nat) : Nat := if 65 ≤ b ∧ b ≤ 90 then b ||| 32 else b

/-- Byte action of `make_ascii_uppercase`: `if 97 <= b && b <= 122 { b -= 32 }`. -/
def upperByte (b : Nat) : Nat := if 97 ≤ b ∧ b ≤ 122 then b - 32 else b

/-- Models `tstr::make_ascii_lowercase`: map `lowerByte` over
`chrs[1..len+1]` in place. -/
def tstr.make_ascii_lowercase {N : Nat} (x : tstr N) : tstr N :=
  ⟨writeBytes x.chrs 1 (x.as_bytes.map lowerByte)⟩

/-- Models `tstr::make_ascii_uppercase`: map `upperByte` over
`chrs[1..len+1]` in place. -/
def tstr.make_ascii_uppercase {N : Nat} (x : tstr N) : tstr N :=
  ⟨writeBytes x.chrs 1 (x.as_bytes.map upperByte)⟩

/-- Models `tstr::to_ascii_upper`: uppercase a copy. -/
def tstr.to_ascii_upper {N : Nat} (x : tstr N) : tstr N :=
  tstr.make_ascii_uppercase x

/-- Models `tstr::to_ascii_lower`: lowercase a copy. -/
def tstr.to_ascii_lower {N : Nat} (x : tstr N) : tstr N :=
  tstr.make_ascii_lowercase x

/-- Models `tstr::resize::<K>` (lines 299-308): copy
`self.chrs[1..length+1]` into a zeroed buffer (the slice is in range
whenever Invariant A holds, i.e. `length ≤ len ≤ M-1`), set the length
byte to `length`. -/
def tstr.resize (K : Nat) {M : Nat} (x : tstr M) : tstr K :=
  let slen := x.len
  let length := if slen < K - 1 then slen else K - 1
  let chars := writeBytes (List.replicate K 0) 1 ((x.chrs.drop 1).take length)
  ⟨chars.set 0 (length % 256)⟩

/-- Models `tstr::reallocate::<K>`: `resize` guarded by `self.len() < K`. -/
def tstr.reallocate (K : Nat) {M : Nat} (x : tstr M) : Option (tstr K) :=
  if x.len < K then some (tstr.resize K x) else none

/-- Models the shared body of the `Add` impls (lines 421-539): promote
`self` by `resize`, copy `other.chrs[1..olen+1]` at `slen+1`, set the
length byte to `slen + olen`.  Each rung fixes `K` to twice the operand
capacity parameter. -/
def tstr.add (K : Nat) {M : Nat} (a b : tstr M) : tstr K :=
  let cat := tstr.resize K a
  let slen := a.len
  let olen := b.len
  let c1 := writeBytes cat.chrs (slen + 1) ((b.chrs.drop 1).take olen)
  ⟨c1.set 0 ((slen + olen) % 256)⟩

/-- The `(operand capacity, result capacity)` pairs of the doubling
ladder: the ten `Add` impls `str4..str192`. -/
def rungs : List (Nat × Nat) :=
  [(4, 8), (8, 16), (12, 24), (16, 32), (24, 48),
   (32, 64), (48, 96), (64, 128), (96, 192), (128, 256)]

/-- Models `tstr::substr` (lines 390-415).  Returns `none` exactly where
the Rust code panics (the `inds.nth(start).unwrap()` on `None`).  Note the
length byte is set to `end - start` before any clamping.  The second
`inds.nth(end - start - 1)` continues the same iterator, so it yields the
element at absolute index `end`. -/
def tstr.substr {N : Nat} (x : tstr N) (start fin : Nat) : Option (tstr N) :=
  let chars0 : List Nat := List.replicate N 0
  let inds := charIndices x.toStr
  let len := x.len
  if start ≥ len || fin ≤ start then some ⟨chars0⟩
  else
    let chars1 := chars0.set 0 ((fin - start) % 256)
    match inds.get? start with
    | none => none
    | some (si, _) =>
      let last := if fin ≥ len then len
                  else
                    match inds.get? fin with
                    | some (ei, _) => ei
                    | none => len
      some ⟨writeBytes chars1 1 ((x.chrs.drop (si + 1)).take (last - si))⟩

/-- Models the `core::fmt::Write` impl's `write_str` (lines 551-560):
reject (`false`, modelling `Err`) when `s.len() + self.len() > N - 1`,
else push and accept. -/
def tstr.write_str {N : Nat} (x : tstr N) (s : List Char) : tstr N × Bool :=
  if utf8Len s + x.len > N - 1 then (x, false)
  else ((tstr.push x s).1, true)

/-- Invariant A of the spec for a `tstr<N>` value: the buffer has its
declared size and the length byte is at most `N - 1` (so the stored
content `as_bytes` has exactly `len` bytes, see `C3_invariantA`). -/
def tstr.invA {N : Nat} (x : tstr N) : Prop :=
  x.chrs.length = N ∧ x.len ≤ N - 1

/-- Specification-side greedy count: how many leading characters of `s`
the push loop accepts starting from byte length `i` with capacity `cap`.
It is the longest prefix whose total encoded size still fits. -/
def fitCount (cap : Nat) (i : Nat) : List Char → Nat
  | [] => 0
  | c :: cs => if i + utf8Size c ≤ cap then fitCount cap (i + utf8Size c) cs + 1 else 0

/-- The string "abc" as a character list. -/
def sabc : List Char := ['a', 'b', 'c']

/-- The string "ab" as a character list. -/
def sab : List Char := ['a', 'b']

/-- The string "defghij" as a character list. -/
def sdefghij : List Char := ['d', 'e', 'f', 'g', 'h', 'i', 'j']

/-! Basic facts about the UTF-8 encoding helpers. -/

theorem utf8Size_pos (c : Char) : 1 ≤ utf8Size c := by
  unfold utf8Size
  repeat' split
  all_goals omega

theorem encodeChar_length (c : Char) : (encodeChar c).length = utf8Size c := by
  unfold encodeChar utf8Size
  repeat' split
  all_goals simp

theorem utf8Bytes_append (s t : List Char) :
    utf8Bytes (s ++ t) = utf8Bytes s ++ utf8Bytes t := by
  induction s with
  | nil => rfl
  | cons c cs ih => simp [utf8Bytes, ih]

theorem utf8Len_nil : utf8Len [] = 0 := rfl

theorem utf8Len_cons (c : Char) (cs : List Char) :
    utf8Len (c :: cs) = utf8Size c + utf8Len cs := by
  simp [utf8Len, utf8Bytes, encodeChar_length]

theorem utf8Len_append (s t : List Char) :
    utf8Len (s ++ t) = utf8Len s + utf8Len t := by
  simp [utf8Len, utf8Bytes_append]

theorem utf8Len_take_le (w : List Char) (i : Nat) :
    utf8Len (w.take i) ≤ utf8Len w := by
  conv_rhs => rw [← List.take_append_drop i w]
  rw [utf8Len_append]
  omega

theorem utf8Len_take_succ (w : List Char) (i : Nat) (c : Char)
    (h : w.get? i = some c) :
    utf8Len (w.take (i + 1)) = utf8Len (w.take i) + utf8Size c := by
  have h' : w[i]? = some c := by rw [← List.get?_eq_getElem?]; exact h
  rw [List.take_succ, h']
  simp [utf8Len_append, utf8Len_cons, utf8Len_nil]

theorem utf8Len_lt_one (s : List Char) : utf8Len s < 1 ↔ s = [] := by
  cases s with
  | nil => simp [utf8Len_nil]
  | cons c cs =>
    have := utf8Size_pos c
    simp [utf8Len_cons]
    omega

/-! Basic facts about `writeBytes` and buffer reads. -/

theorem writeBytes_nil (l : List Nat) (p : Nat) : writeBytes l p [] = l := by
  simp [writeBytes]

theorem writeBytes_zero (l src : List Nat) :
    writeBytes l 0 src = src ++ l.drop src.length := by
  simp [writeBytes]

theorem writeBytes_cons (a : Nat) (l src : List Nat) (p : Nat) :
    writeBytes (a :: l) (p + 1) src = a :: writeBytes l p src := by
  show (a :: l).take (p + 1) ++ src ++ (a :: l).drop (p + 1 + src.length) = _
  rw [List.take_succ_cons, Nat.add_right_comm, List.drop_succ_cons]
  simp [writeBytes]

theorem writeBytes_length (l src : List Nat) (p : Nat)
    (h : p + src.length ≤ l.length) :
    (writeBytes l p src).length = l.length := by
  simp [writeBytes]
  omega

theorem writeBytes_writeBytes (l : List Nat) (p : Nat) (s1 s2 : List Nat)
    (h : p + s1.length + s2.length ≤ l.length) :
    writeBytes (writeBytes l p s1) (p + s1.length) s2 = writeBytes l p (s1 ++ s2) := by
  induction l generalizing p s1 with
  | nil =>
    have h0 : p + s1.length + s2.length ≤ 0 := by simpa using h
    have hp : p = 0 := by omega
    have hs1 : s1 = [] := List.length_eq_zero.mp (by omega)
    have hs2 : s2 = [] := List.length_eq_zero.mp (by omega)
    subst hp; subst hs1; subst hs2
    rfl
  | cons a l ih =>
    cases p with
    | zero =>
      cases s1 with
      | nil => simp [writeBytes_nil]
      | cons x s1 =>
        have hx : writeBytes (a :: l) 0 (x :: s1) = x :: writeBytes l 0 s1 := by
          simp [writeBytes_zero]
        have hx2 : writeBytes (a :: l) 0 (x :: s1 ++ s2) = x :: writeBytes l 0 (s1 ++ s2) := by
          simp [writeBytes_zero]
        rw [hx]
        have : (0 : Nat) + (x :: s1).length = s1.length + 1 := by simp
        rw [this, writeBytes_cons, hx2]
        have := ih 0 s1 (by simp at h ⊢; omega)
        simpa using this
    | succ q =>
      rw [writeBytes_cons]
      have hstep : q + 1 + s1.length = (q + s1.length) + 1 := by omega
      rw [hstep, writeBytes_cons, ih q s1 (by simp at h; omega), writeBytes_cons]

theorem take_length_append (s t : List Nat) : (s ++ t).take s.length = s := by
  simp

theorem take_writeBytes (l src : List Nat) (p : Nat)
    (h : p + src.length ≤ l.length) :
    (writeBytes l p src).take (p + src.length) = l.take p ++ src := by
  induction l generalizing p with
  | nil =>
    have h0 : p + src.length ≤ 0 := by simpa using h
    have hp : p = 0 := by omega
    have hs : src = [] := List.length_eq_zero.mp (by omega)
    subst hp; subst hs
    rfl
  | cons a l ih =>
    cases p with
    | zero =>
      rw [writeBytes_zero]
      simp [take_length_append]
    | succ q =>
      rw [writeBytes_cons]
      have hstep : q + 1 + src.length = (q + src.length) + 1 := by omega
      rw [hstep, List.take_succ_cons, List.take_succ_cons,
        ih q (by simp at h; omega)]
      rfl

theorem getD_zero_set (l : List Nat) (v : Nat) (h : l ≠ []) :
    (l.set 0 v).getD 0 0 = v := by
  cases l with
  | nil => exact absurd rfl h
  | cons a l => rfl

theorem drop_one_set_zero (l : List Nat) (v : Nat) :
    (l.set 0 v).drop 1 = l.drop 1 := by
  cases l <;> rfl

theorem length_set_eq (l : List Nat) (i v : Nat) : (l.set i v).length = l.length := by
  simp

theorem getD_zero_writeBytes (l src : List Nat) (p : Nat) (hp : 1 ≤ p)
    (h : l ≠ []) :
    (writeBytes l p src).getD 0 0 = l.getD 0 0 := by
  cases l with
  | nil => exact absurd rfl h
  | cons a l =>
    cases p with
    | zero => omega
    | succ q => rw [writeBytes_cons]; rfl

/-! The decoder inverts the encoder, and `charIndices` enumerates
cumulative byte offsets. -/

theorem decodeOne_encodeChar (c : Char) (t : List Nat) :
    ∃ b0 rest, encodeChar c = b0 :: rest ∧ rest.length + 1 = utf8Size c ∧
      decodeOne b0 (rest ++ t) = some (c, t) := by
  have hofn : Char.ofNat c.toNat = c := Char.ofNat_toNat c
  by_cases h1 : c.toNat < 128
  · refine ⟨c.toNat, [], by simp [encodeChar, h1], by simp [utf8Size, h1], ?_⟩
    simp [decodeOne, h1, hofn]
  · by_cases h2 : c.toNat < 2048
    · have hv := Nat.div_add_mod c.toNat 64
      have hm : c.toNat % 64 < 64 := Nat.mod_lt _ (by omega)
      have hb1 : ¬ (192 + c.toNat / 64 < 128) := by omega
      have hb2 : ¬ (192 + c.toNat / 64 < 192) := by omega
      have hb3 : 192 + c.toNat / 64 < 224 := by omega
      have hcont : isCont (128 + c.toNat % 64) = true := by
        simp [isCont]; omega
      have hval : (192 + c.toNat / 64 - 192) * 64 + (128 + c.toNat % 64 - 128) =
          c.toNat := by omega
      refine ⟨192 + c.toNat / 64, [128 + c.toNat % 64],
        by simp [encodeChar, h1, h2], by simp [utf8Size, h1, h2], ?_⟩
      simp only [List.cons_append, List.nil_append]
      simp [decodeOne, hb1, hb2, hb3, hcont, hval, hofn]
      rw [show c.toNat / 64 * 64 + c.toNat % 64 = c.toNat from by omega]
      exact hofn
    · by_cases h3 : c.toNat < 65536
      · have hv1 := Nat.div_add_mod c.toNat 64
        have hv2 := Nat.div_add_mod (c.toNat / 64) 64
        have hdd : c.toNat / 64 / 64 = c.toNat / 4096 := by
          rw [Nat.div_div_eq_div_mul]
        rw [hdd] at hv2
        have hm1 : c.toNat % 64 < 64 := Nat.mod_lt _ (by omega)
        have hm2 : c.toNat / 64 % 64 < 64 := Nat.mod_lt _ (by omega)
        have hb1 : ¬ (224 + c.toNat / 4096 < 128) := by omega
        have hb2 : ¬ (224 + c.toNat / 4096 < 192) := by omega
        have hb3 : ¬ (224 + c.toNat / 4096 < 224) := by omega
        have hb4 : 224 + c.toNat / 4096 < 240 := by omega
        have hcont1 : isCont (128 + c.toNat / 64 % 64) = true := by
          simp [isCont]; omega
        have hcont2 : isCont (128 + c.toNat % 64) = true := by
          simp [isCont]; omega
        have hval : (224 + c.toNat / 4096 - 224) * 4096 +
            (128 + c.toNat / 64 % 64 - 128) * 64 + (128 + c.toNat % 64 - 128) =
            c.toNat := by omega
        refine ⟨224 + c.toNat / 4096, [128 + c.toNat / 64 % 64, 128 + c.toNat % 64],
          by simp [encodeChar, h1, h2, h3], by simp [utf8Size, h1, h2, h3], ?_⟩
        simp only [List.cons_append, List.nil_append]
        simp [decodeOne, hb1, hb2, hb3, hb4, hcont1, hcont2, hval, hofn]
        rw [show c.toNat / 4096 * 4096 + c.toNat / 64 % 64 * 64 + c.toNat % 64 =
          c.toNat from by omega]
        exact hofn
      · have hv1 := Nat.div_add_mod c.toNat 64
        have hv2 := Nat.div_add_mod (c.toNat / 64) 64
        have hv3 := Nat.div_add_mod (c.toNat / 4096) 64
        have hdd1 : c.toNat / 64 / 64 = c.toNat / 4096 := by
          rw [Nat.div_div_eq_div_mul]
        have hdd2 : c.toNat / 4096 / 64 = c.toNat / 262144 := by
          rw [Nat.div_div_eq_div_mul]
        rw [hdd1] at hv2
        rw [hdd2] at hv3
        have hm1 : c.toNat % 64 < 64 := Nat.mod_lt _ (by omega)
        have hm2 : c.toNat / 64 % 64 < 64 := Nat.mod_lt _ (by omega)
        have hm3 : c.toNat / 4096 % 64 < 64 := Nat.mod_lt _ (by omega)
        have hb1 : ¬ (240 + c.toNat / 262144 < 128) := by omega
        have hb2 : ¬ (240 + c.toNat / 262144 < 192) := by omega
        have hb3 : ¬ (240 + c.toNat / 262144 < 224) := by omega
        have hb4 : ¬ (240 + c.toNat / 262144 < 240) := by omega
        have hcont1 : isCont (128 + c.toNat / 4096 % 64) = true := by
          simp [isCont]; omega
        have hcont2 : isCont (128 + c.toNat / 64 % 64) = true := by
          simp [isCont]; omega
        have hcont3 : isCont (128 + c.toNat % 64) = true := by
          simp [isCont]; omega
        have hval : (240 + c.toNat / 262144 - 240) * 262144 +
            (128 + c.toNat / 4096 % 64 - 128) * 4096 +
            (128 + c.toNat / 64 % 64 - 128) * 64 + (128 + c.toNat % 64 - 128) =
            c.toNat := by omega
        refine ⟨240 + c.toNat / 262144,
          [128 + c.toNat / 4096 % 64, 128 + c.toNat / 64 % 64, 128 + c.toNat % 64],
          by simp [encodeChar, h1, h2, h3], by simp [utf8Size, h1, h2, h3], ?_⟩
        simp only [List.cons_append, List.nil_append]
        simp [decodeOne, hb1, hb2, hb3, hb4, hcont1, hcont2, hcont3, hval, hofn]
        rw [show c.toNat / 262144 * 262144 + c.toNat / 4096 % 64 * 4096 +
          c.toNat / 64 % 64 * 64 + c.toNat % 64 = c.toNat from by omega]
        exact hofn

theorem decodeLoop_utf8Bytes (w : List Char) (fuel : Nat)
    (hf : utf8Len w ≤ fuel) :
    decodeLoop fuel (utf8Bytes w) = some w := by
  induction w generalizing fuel with
  | nil => cases fuel <;> rfl
  | cons c cs ih =>
    obtain ⟨b0, rest, henc, hlen, hdec⟩ := decodeOne_encodeChar c (utf8Bytes cs)
    have hsz := utf8Size_pos c
    have hfc : utf8Len (c :: cs) = utf8Size c + utf8Len cs := utf8Len_cons c cs
    rw [show utf8Bytes (c :: cs) = b0 :: (rest ++ utf8Bytes cs) from by
      show encodeChar c ++ utf8Bytes cs = _
      rw [henc]; simp]
    cases fuel with
    | zero => omega
    | succ f =>
      show decodeLoop (f + 1) (b0 :: (rest ++ utf8Bytes cs)) = _
      rw [decodeLoop, hdec]
      simp [ih f (by omega)]

theorem decodeUtf8_utf8Bytes (w : List Char) :
    decodeUtf8 (utf8Bytes w) = some w :=
  decodeLoop_utf8Bytes w (utf8Bytes w).length (Nat.le_refl _)

theorem toStr_of_valid {N : Nat} (x : tstr N) (w : List Char)
    (h : x.as_bytes = utf8Bytes w) : x.toStr = w := by
  simp [tstr.toStr, h, decodeUtf8_utf8Bytes]

theorem charIndicesAux_get? (w : List Char) (off i : Nat) :
    (charIndicesAux off w).get? i =
      (w.get? i).map (fun c => (off + utf8Len (w.take i), c)) := by
  induction w generalizing off i with
  | nil => simp [charIndicesAux]
  | cons c cs ih =>
    cases i with
    | zero => simp [charIndicesAux, utf8Len_nil]
    | succ j =>
      simp only [charIndicesAux, List.get?_cons_succ, ih, List.take_succ_cons,
        utf8Len_cons]
      cases cs.get? j <;> simp [Nat.add_assoc]

theorem charIndices_get? (w : List Char) (i : Nat) :
    (charIndices w).get? i = (w.get? i).map (fun c => (utf8Len (w.take i), c)) := by
  rw [charIndices, charIndicesAux_get?]
  cases w.get? i <;> simp

theorem charIndices_get?_eq_none (w : List Char) (i : Nat) (h : w.length ≤ i) :
    (charIndices w).get? i = none := by
  rw [charIndices_get?, List.get?_eq_none.mpr h]
  rfl

/-! Characterisation of the `push` loop. -/

theorem fitCount_le (cap i : Nat) (cs : List Char) (h : i ≤ cap) :
    i + utf8Len (cs.take (fitCount cap i cs)) ≤ cap := by
  induction cs generalizing i with
  | nil => simpa [fitCount, utf8Len_nil]
  | cons c cs ih =>
    by_cases hc : i + utf8Size c ≤ cap
    · simp only [fitCount, if_pos hc, List.take_succ_cons, utf8Len_cons]
      have := ih (i + utf8Size c) hc
      omega
    · simp only [fitCount, if_neg hc, List.take_zero, utf8Len_nil]
      omega

theorem fitCount_all (cap i : Nat) (cs : List Char) (h : i + utf8Len cs ≤ cap) :
    fitCount cap i cs = cs.length := by
  induction cs generalizing i with
  | nil => rfl
  | cons c cs ih =>
    rw [utf8Len_cons] at h
    have hc : i + utf8Size c ≤ cap := by omega
    simp only [fitCount, if_pos hc, List.length_cons,
      ih (i + utf8Size c) (by omega)]

theorem dropBytes_take (cs : List Char) (k : Nat) :
    dropBytes cs (utf8Len (cs.take k)) = cs.drop k := by
  induction cs generalizing k with
  | nil => cases k <;> simp [dropBytes, utf8Len_nil]
  | cons c cs ih =>
    cases k with
    | zero => simp [dropBytes, utf8Len_nil]
    | succ j =>
      have hsz := utf8Size_pos c
      rw [List.take_succ_cons, utf8Len_cons, List.drop_succ_cons]
      obtain ⟨m, hm⟩ : ∃ m, utf8Size c + utf8Len (cs.take j) = m + 1 :=
        ⟨utf8Size c + utf8Len (cs.take j) - 1, by omega⟩
      rw [hm, dropBytes, show m + 1 - utf8Size c = utf8Len (cs.take j) from by omega]
      exact ih j

theorem pushLoop_spec (N : Nat) (cs : List Char) (b : Nat) (rest : List Nat)
    (i sci : Nat) (hrest : rest.length + 1 = N) (hi : i + 1 ≤ N) :
    pushLoop N cs (b :: rest) i sci =
      ((i + utf8Len (cs.take (fitCount (N - 1) i cs))) % 256 ::
        writeBytes rest i (utf8Bytes (cs.take (fitCount (N - 1) i cs))),
       sci + utf8Len (cs.take (fitCount (N - 1) i cs))) := by
  induction cs generalizing rest i sci with
  | nil =>
    have hiN : i < N := by omega
    simp [pushLoop, if_pos hiN, fitCount, utf8Len_nil, utf8Bytes, writeBytes_nil]
  | cons c cs ih =>
    by_cases hc : i + utf8Size c + 1 ≤ N
    · have hfit : i + utf8Size c ≤ N - 1 := by omega
      have hwlen : i + (encodeChar c).length ≤ rest.length := by
        rw [encodeChar_length]; omega
      have hlen2 : (writeBytes rest i (encodeChar c)).length + 1 = N := by
        rw [writeBytes_length _ _ _ hwlen]; exact hrest
      have hbound := fitCount_le (N - 1) (i + utf8Size c) cs hfit
      simp only [pushLoop, if_pos hc]
      rw [writeBytes_cons,
        ih (writeBytes rest i (encodeChar c)) (i + utf8Size c) (sci + utf8Size c)
          hlen2 (by omega)]
      have hfc : fitCount (N - 1) i (c :: cs) =
          fitCount (N - 1) (i + utf8Size c) cs + 1 := by
        simp [fitCount, hfit]
      rw [hfc, List.take_succ_cons, utf8Len_cons]
      have henc : utf8Bytes (c :: cs.take (fitCount (N - 1) (i + utf8Size c) cs)) =
          encodeChar c ++ utf8Bytes (cs.take (fitCount (N - 1) (i + utf8Size c) cs)) :=
        rfl
      have hblen : (utf8Bytes (cs.take (fitCount (N - 1) (i + utf8Size c) cs))).length =
          utf8Len (cs.take (fitCount (N - 1) (i + utf8Size c) cs)) := rfl
      rw [henc, ← writeBytes_writeBytes rest i (encodeChar c) _
        (by rw [encodeChar_length]; omega)]
      rw [encodeChar_length, Nat.add_assoc, Nat.add_assoc]
    · have h0 : fitCount (N - 1) i (c :: cs) = 0 := by
        have : ¬ (i + utf8Size c ≤ N - 1) := by omega
        simp [fitCount, this]
      simp [pushLoop, if_neg hc, h0, utf8Len_nil, utf8Bytes, writeBytes_nil]

theorem push_spec {N : Nat} (x : tstr N) (s : List Char)
    (hN : 1 ≤ N) (hN2 : N ≤ 256) (hlen : x.chrs.length = N) (hA : x.len ≤ N - 1) :
    (tstr.push x s).2 = s.drop (fitCount (N - 1) x.len s) ∧
    (tstr.push x s).1.len = x.len + utf8Len (s.take (fitCount (N - 1) x.len s)) ∧
    (tstr.push x s).1.as_bytes =
      x.as_bytes ++ utf8Bytes (s.take (fitCount (N - 1) x.len s)) ∧
    (tstr.push x s).1.chrs.length = N := by
  by_cases hs : utf8Len s < 1
  · have hsnil : s = [] := (utf8Len_lt_one s).mp hs
    subst hsnil
    simp [tstr.push, fitCount, utf8Len_nil, utf8Bytes, hlen]
  · cases hx : x.chrs with
    | nil => exact absurd (hlen ▸ congrArg List.length hx) (by simp; omega)
    | cons b rest =>
      have hb : x.len = b := by simp [tstr.len, hx]
      have hrest : rest.length + 1 = N := by
        have := congrArg List.length hx
        simp at this
        omega
      have hbound := fitCount_le (N - 1) b s (by omega : b ≤ N - 1)
      have hmod : (b + utf8Len (s.take (fitCount (N - 1) b s))) % 256 =
          b + utf8Len (s.take (fitCount (N - 1) b s)) :=
        Nat.mod_eq_of_lt (by omega)
      have hwb : utf8Len (s.take (fitCount (N - 1) b s)) =
          (utf8Bytes (s.take (fitCount (N - 1) b s))).length := rfl
      have habytes : x.as_bytes = rest.take b := by
        simp [tstr.as_bytes, hx, hb]
      rw [tstr.push, if_neg hs, hx, hb]
      rw [pushLoop_spec N s b rest b 0 hrest (by omega)]
      refine ⟨?_, ?_, ?_, ?_⟩
      · simp [dropBytes_take]
      · simp [tstr.len, hmod]
      · simp only [tstr.as_bytes, tstr.len, hx, List.getD_cons_zero, hmod,
          List.drop_succ_cons, List.drop_zero]
        rw [hwb, take_writeBytes rest _ b (by rw [← hwb]; omega)]
      · simp only [List.length_cons]
        rw [writeBytes_length _ _ _ (by omega)]
        omega

/-! Normal forms for `create` and `resize`. -/

theorem replicate_eq_cons (N : Nat) (hN : 1 ≤ N) :
    List.replicate N (0 : Nat) = 0 :: List.replicate (N - 1) 0 := by
  conv_lhs => rw [show N = (N - 1) + 1 from by omega]
  rfl

theorem create_eq (N : Nat) (s : List Char) (hN : 2 ≤ N) (hN2 : N ≤ 256) :
    (tstr.create N s).chrs =
      min (N - 1) (utf8Bytes s).length ::
        ((utf8Bytes s).take (min (N - 1) (utf8Bytes s).length) ++
         List.replicate (N - 1 - min (N - 1) (utf8Bytes s).length) 0) := by
  have htl : ((utf8Bytes s).take (min (N - 1) (utf8Bytes s).length)).length =
      min (N - 1) (utf8Bytes s).length := by
    simp [List.length_take]
  have h1 : writeBytes (List.replicate N 0) 1
        ((utf8Bytes s).take (min (N - 1) (utf8Bytes s).length)) =
      0 :: ((utf8Bytes s).take (min (N - 1) (utf8Bytes s).length) ++
        List.replicate (N - 1 - min (N - 1) (utf8Bytes s).length) 0) := by
    rw [replicate_eq_cons N (by omega), show (1 : Nat) = 0 + 1 from rfl,
      writeBytes_cons, writeBytes_zero, htl, List.drop_replicate]
  have hmod : min (N - 1) (utf8Bytes s).length % 256 =
      min (N - 1) (utf8Bytes s).length := Nat.mod_eq_of_lt (by omega)
  by_cases h0 : min (N - 1) (utf8Bytes s).length = 0
  · have hblen : (utf8Bytes s).length = 0 := by omega
    have hnil : utf8Bytes s = [] := List.length_eq_zero.mp hblen
    simp only [tstr.create, hnil, List.length_nil, List.take_nil, Nat.min_zero,
      Nat.zero_mod, writeBytes_nil, List.nil_append]
    rw [replicate_eq_cons N (show 1 ≤ N by omega)]
    simp
  · simp only [tstr.create, h1, hmod, List.set_cons_zero, List.getD_cons_zero]
    rw [if_neg (by simpa using h0)]

theorem create_len (N : Nat) (s : List Char) (hN : 2 ≤ N) (hN2 : N ≤ 256) :
    (tstr.create N s).len = min (N - 1) (utf8Bytes s).length := by
  simp [tstr.len, create_eq N s hN hN2]

theorem create_as_bytes (N : Nat) (s : List Char) (hN : 2 ≤ N) (hN2 : N ≤ 256) :
    (tstr.create N s).as_bytes =
      (utf8Bytes s).take (min (N - 1) (utf8Bytes s).length) := by
  have htl : ((utf8Bytes s).take (min (N - 1) (utf8Bytes s).length)).length =
      min (N - 1) (utf8Bytes s).length := by
    simp [List.length_take]
  rw [tstr.as_bytes, create_len N s hN hN2, create_eq N s hN hN2,
    List.drop_succ_cons, List.drop_zero]
  exact List.take_left' htl

theorem create_chrs_length (N : Nat) (s : List Char) (hN : 2 ≤ N) (hN2 : N ≤ 256) :
    (tstr.create N s).chrs.length = N := by
  rw [create_eq N s hN hN2]
  simp [List.length_take]
  omega

theorem create_invA (N : Nat) (s : List Char) (hN : 2 ≤ N) (hN2 : N ≤ 256) :
    (tstr.create N s).invA := by
  refine ⟨create_chrs_length N s hN hN2, ?_⟩
  rw [create_len N s hN hN2]
  omega

theorem resize_eq (K N : Nat) (x : tstr N) (hK1 : 1 ≤ K) (hl255 : x.len ≤ 255)
    (hKlen : x.len ≤ K - 1) (hxlen : x.len + 1 ≤ x.chrs.length) :
    (tstr.resize K x).chrs =
      x.len :: (x.as_bytes ++ List.replicate (K - 1 - x.len) 0) := by
  have hlength : (if x.len < K - 1 then x.len else K - 1) = x.len := by
    split <;> omega
  have hsrc : ((x.chrs.drop 1).take x.len).length = x.len := by
    simp [List.length_take, List.length_drop]
    omega
  have h1 : writeBytes (List.replicate K 0) 1 ((x.chrs.drop 1).take x.len) =
      0 :: (((x.chrs.drop 1).take x.len) ++ List.replicate (K - 1 - x.len) 0) := by
    rw [replicate_eq_cons K hK1, show (1 : Nat) = 0 + 1 from rfl,
      writeBytes_cons, writeBytes_zero, hsrc, List.drop_replicate]
  have hmod : x.len % 256 = x.len := Nat.mod_eq_of_lt (by omega)
  simp only [tstr.resize, hlength, h1, List.set_cons_zero, hmod]
  rfl

theorem resize_len (K N : Nat) (x : tstr N) (hK1 : 1 ≤ K) (hl255 : x.len ≤ 255)
    (hKlen : x.len ≤ K - 1) (hxlen : x.len + 1 ≤ x.chrs.length) :
    (tstr.resize K x).len = x.len := by
  simp [tstr.len, resize_eq K N x hK1 hl255 hKlen hxlen]

theorem resize_as_bytes (K N : Nat) (x : tstr N) (hK1 : 1 ≤ K)
    (hl255 : x.len ≤ 255) (hKlen : x.len ≤ K - 1)
    (hxlen : x.len + 1 ≤ x.chrs.length) :
    (tstr.resize K x).as_bytes = x.as_bytes := by
  have hab : x.as_bytes.length = x.len := by
    simp [tstr.as_bytes, List.length_take, List.length_drop]
    omega
  rw [tstr.as_bytes, resize_len K N x hK1 hl255 hKlen hxlen,
    resize_eq K N x hK1 hl255 hKlen hxlen, List.drop_succ_cons, List.drop_zero]
  exact List.take_left' hab

theorem resize_chrs_length (K N : Nat) (x : tstr N) (hK1 : 1 ≤ K)
    (hl255 : x.len ≤ 255) (hKlen : x.len ≤ K - 1)
    (hxlen : x.len + 1 ≤ x.chrs.length) :
    (tstr.resize K x).chrs.length = K := by
  have hab : x.as_bytes.length = x.len := by
    simp [tstr.as_bytes, List.length_take, List.length_drop]
    omega
  rw [resize_eq K N x hK1 hl255 hKlen hxlen]
  simp [hab]
  omega

theorem resize_invA (K N : Nat) (x : tstr N) (hK1 : 1 ≤ K) (hK2 : K ≤ 256) :
    (tstr.resize K x).invA := by
  have hlen : (if x.len < K - 1 then x.len else K - 1) ≤ K - 1 := by
    split <;> omega
  have hsrc : ((x.chrs.drop 1).take (if x.len < K - 1 then x.len else K - 1)).length ≤
      K - 1 := by
    simp [List.length_take, List.length_drop]
    omega
  have hwlen : (writeBytes (List.replicate K 0) 1
      ((x.chrs.drop 1).take (if x.len < K - 1 then x.len else K - 1))).length = K := by
    rw [writeBytes_length]
    · simp
    · simp only [List.length_replicate]
      omega
  constructor
  · show (_ : List Nat).length = K
    simp only [tstr.resize]
    rw [length_set_eq, hwlen]
  · show (_ : List Nat).getD 0 0 ≤ K - 1
    simp only [tstr.resize]
    rw [getD_zero_set]
    · exact le_trans (Nat.le_of_eq (Nat.mod_eq_of_lt (by omega))) hlen
    · intro hcon
      have := congrArg List.length hcon
      rw [hwlen] at this
      simp at this
      omega

/-! Facts about the remaining operations. -/

theorem as_bytes_length {N : Nat} (x : tstr N) (hx : x.invA) :
    x.as_bytes.length = x.len := by
  obtain ⟨h1, h2⟩ := hx
  simp [tstr.as_bytes, List.length_take, List.length_drop]
  omega

theorem len_eq_utf8Len {N : Nat} (x : tstr N) (w : List Char) (hx : x.invA)
    (hw : x.as_bytes = utf8Bytes w) : x.len = utf8Len w := by
  rw [← as_bytes_length x hx, hw]
  rfl

theorem chrs_ne_nil {N : Nat} (x : tstr N) (hx : x.invA) (hN : 1 ≤ N) :
    x.chrs ≠ [] := by
  intro hcon
  have := congrArg List.length hcon
  rw [hx.1] at this
  simp at this
  omega

theorem set_success_iff {N : Nat} (x : tstr N) (w : List Char) (i : Nat) (c : Char)
    (hw : x.as_bytes = utf8Bytes w) :
    ((tstr.set x i c).2 = true ↔
      ∃ rc, w.get? i = some rc ∧ utf8Size c = utf8Size rc) := by
  rw [tstr.set, toStr_of_valid x w hw, charIndices_get? w i]
  cases hgi : w.get? i with
  | none => simp
  | some rc =>
    by_cases hsz : utf8Size c = utf8Size rc
    · simp [hsz]
    · simp [hsz]

theorem set_fail_unchanged {N : Nat} (x : tstr N) (w : List Char) (i : Nat)
    (c : Char) (hw : x.as_bytes = utf8Bytes w) :
    (tstr.set x i c).2 = false → (tstr.set x i c).1 = x := by
  rw [tstr.set, toStr_of_valid x w hw, charIndices_get? w i]
  cases hgi : w.get? i with
  | none => simp
  | some rc =>
    by_cases hsz : utf8Size c = utf8Size rc
    · simp [hsz]
    · simp [hsz]

theorem set_invA {N : Nat} (x : tstr N) (w : List Char) (i : Nat) (c : Char)
    (hx : x.invA) (hw : x.as_bytes = utf8Bytes w) :
    ((tstr.set x i c).1).invA := by
  rw [tstr.set, toStr_of_valid x w hw, charIndices_get? w i]
  cases hgi : w.get? i with
  | none => simpa using hx
  | some rc =>
    by_cases hsz : utf8Size c = utf8Size rc
    · have hsucc : utf8Len (w.take (i + 1)) =
          utf8Len (w.take i) + utf8Size rc := utf8Len_take_succ w i rc hgi
      have hle : utf8Len (w.take (i + 1)) ≤ utf8Len w := utf8Len_take_le w (i + 1)
      have hlenw : x.len = utf8Len w := len_eq_utf8Len x w hx hw
      have hszrc := utf8Size_pos rc
      have hN : x.chrs.length = N := hx.1
      have hA : x.len ≤ N - 1 := hx.2
      have henc : (encodeChar c).length = utf8Size rc := by
        rw [encodeChar_length]; exact hsz
      have hbound : utf8Len (w.take i) + 1 + (encodeChar c).length ≤
          x.chrs.length := by
        rw [henc, hN]; omega
      have hne : x.chrs ≠ [] := by
        intro hcon
        have := congrArg List.length hcon
        simp [hN] at this
        omega
      simp only [Option.map_some', hsz, beq_self_eq_true, if_true]
      refine ⟨?_, ?_⟩
      · show (writeBytes x.chrs (utf8Len (w.take i) + 1) (encodeChar c)).length = N
        rw [writeBytes_length _ _ _ hbound, hN]
      · show (writeBytes x.chrs (utf8Len (w.take i) + 1)
            (encodeChar c)).getD 0 0 ≤ N - 1
        rw [getD_zero_writeBytes _ _ _ (by omega) hne]
        exact hA
    · simp only [Option.map_some']
      rw [if_neg (by simpa using hsz)]
      exact hx

theorem utf8Bytes_take_eq (w : List Char) (n : Nat) :
    (utf8Bytes w).take (utf8Len (w.take n)) = utf8Bytes (w.take n) := by
  have h : utf8Bytes w = utf8Bytes (w.take n) ++ utf8Bytes (w.drop n) := by
    rw [← utf8Bytes_append, List.take_append_drop]
  rw [h]
  exact List.take_left' rfl

theorem truncate_spec {N : Nat} (x : tstr N) (w : List Char) (n : Nat)
    (hx : x.invA) (hw : x.as_bytes = utf8Bytes w) (hN2 : N ≤ 256) :
    (tstr.truncate x n).as_bytes = utf8Bytes (w.take n) ∧
    (tstr.truncate x n).len = utf8Len (w.take n) ∧
    (tstr.truncate x n).chrs.length = N ∧
    (w.length ≤ n → tstr.truncate x n = x) := by
  rw [tstr.truncate, toStr_of_valid x w hw, charIndices_get? w n]
  cases hgn : w.get? n with
  | none =>
    have hn : w.length ≤ n := List.get?_eq_none.mp hgn
    have htk : w.take n = w := List.take_of_length_le hn
    simp only [Option.map_none']
    refine ⟨?_, ?_, hx.1, ?_⟩
    · rw [htk]; exact hw
    · rw [htk]; exact len_eq_utf8Len x w hx hw
    · intro h
      trivial
  | some rc =>
    have hnw : n < w.length := by
      by_contra hcon
      rw [List.get?_eq_none.mpr (by omega)] at hgn
      exact Option.noConfusion hgn
    have hlenw : x.len = utf8Len w := len_eq_utf8Len x w hx hw
    have hble : utf8Len (w.take n) ≤ utf8Len w := utf8Len_take_le w n
    have hwpos : 1 ≤ utf8Len w := by
      cases w with
      | nil => simp at hnw
      | cons c cs =>
        rw [utf8Len_cons]
        have := utf8Size_pos c
        omega
    have hA : x.len ≤ N - 1 := hx.2
    have hmod : utf8Len (w.take n) % 256 = utf8Len (w.take n) :=
      Nat.mod_eq_of_lt (by omega)
    have hne : x.chrs ≠ [] := by
      intro hcon
      have h0 : x.len = 0 := by simp [tstr.len, hcon]
      omega
    simp only [Option.map_some']
    refine ⟨?_, ?_, ?_, ?_⟩
    · show ((x.chrs.set 0 (utf8Len (w.take n) % 256)).drop 1).take
        ((x.chrs.set 0 (utf8Len (w.take n) % 256)).getD 0 0) = _
      rw [drop_one_set_zero, getD_zero_set _ _ hne, hmod]
      have h1 : (x.chrs.drop 1).take (utf8Len (w.take n)) =
          x.as_bytes.take (utf8Len (w.take n)) := by
        rw [tstr.as_bytes, List.take_take, Nat.min_eq_left (by omega)]
      rw [h1, hw, utf8Bytes_take_eq]
    · show (x.chrs.set 0 (utf8Len (w.take n) % 256)).getD 0 0 = _
      rw [getD_zero_set _ _ hne, hmod]
    · show (x.chrs.set 0 (utf8Len (w.take n) % 256)).length = N
      rw [length_set_eq, hx.1]
    · intro hcon
      rw [List.get?_eq_none.mpr hcon] at hgn
      exact Option.noConfusion hgn

theorem truncate_invA {N : Nat} (x : tstr N) (w : List Char) (n : Nat)
    (hx : x.invA) (hw : x.as_bytes = utf8Bytes w) (hN2 : N ≤ 256) :
    (tstr.truncate x n).invA := by
  obtain ⟨h1, h2, h3, h4⟩ := truncate_spec x w n hx hw hN2
  refine ⟨h3, ?_⟩
  rw [h2]
  have := utf8Len_take_le w n
  have := len_eq_utf8Len x w hx hw
  have := hx.2
  omega

theorem truncate_bytes_invA {N : Nat} (x : tstr N) (n : Nat) (y : tstr N)
    (hx : x.invA) (hy : tstr.truncate_bytes x n = some y) : y.invA := by
  rw [tstr.truncate_bytes] at hy
  by_cases hlt : n < x.len
  · rw [if_pos hlt] at hy
    by_cases hb : isCharBoundary x.as_bytes n = true
    · rw [if_pos hb] at hy
      have hne : x.chrs ≠ [] := by
        intro hcon
        have := congrArg List.length hcon
        rw [hx.1] at this
        simp at this
        simp [tstr.len, hcon] at hlt
      cases hy
      refine ⟨by rw [length_set_eq, hx.1], ?_⟩
      show (x.chrs.set 0 (n % 256)).getD 0 0 ≤ N - 1
      rw [getD_zero_set _ _ hne]
      have := hx.2
      have : n % 256 ≤ n := Nat.mod_le n 256
      omega
    · rw [if_neg hb] at hy
      exact Option.noConfusion hy
  · rw [if_neg hlt] at hy
    cases hy
    exact hx

theorem clear_invA {N : Nat} (x : tstr N) (hx : x.invA) (hN : 1 ≤ N) :
    (tstr.clear x).invA := by
  have hne : x.chrs ≠ [] := chrs_ne_nil x hx hN
  refine ⟨by rw [tstr.clear, length_set_eq, hx.1], ?_⟩
  show (x.chrs.set 0 0).getD 0 0 ≤ N - 1
  rw [getD_zero_set _ _ hne]
  omega

theorem ascii_lower_invA {N : Nat} (x : tstr N) (hx : x.invA) (hN : 1 ≤ N) :
    (tstr.make_ascii_lowercase x).invA := by
  have hne : x.chrs ≠ [] := chrs_ne_nil x hx hN
  have hab : x.as_bytes.length = x.len := as_bytes_length x hx
  have hbound : 1 + (x.as_bytes.map lowerByte).length ≤ x.chrs.length := by
    rw [List.length_map, hab, hx.1]
    have := hx.2
    omega
  refine ⟨?_, ?_⟩
  · show (writeBytes x.chrs 1 (x.as_bytes.map lowerByte)).length = N
    rw [writeBytes_length _ _ _ hbound, hx.1]
  · show (writeBytes x.chrs 1 (x.as_bytes.map lowerByte)).getD 0 0 ≤ N - 1
    rw [getD_zero_writeBytes _ _ _ (by omega) hne]
    exact hx.2

theorem ascii_upper_invA {N : Nat} (x : tstr N) (hx : x.invA) (hN : 1 ≤ N) :
    (tstr.make_ascii_uppercase x).invA := by
  have hne : x.chrs ≠ [] := chrs_ne_nil x hx hN
  have hab : x.as_bytes.length = x.len := as_bytes_length x hx
  have hbound : 1 + (x.as_bytes.map upperByte).length ≤ x.chrs.length := by
    rw [List.length_map, hab, hx.1]
    have := hx.2
    omega
  refine ⟨?_, ?_⟩
  · show (writeBytes x.chrs 1 (x.as_bytes.map upperByte)).length = N
    rw [writeBytes_length _ _ _ hbound, hx.1]
  · show (writeBytes x.chrs 1 (x.as_bytes.map upperByte)).getD 0 0 ≤ N - 1
    rw [getD_zero_writeBytes _ _ _ (by omega) hne]
    exact hx.2

theorem add_spec (M K : Nat) (a b : tstr M) (hM : 1 ≤ M) (hK : K = 2 * M)
    (hK2 : K ≤ 256) (ha : a.invA) (hb : b.invA) :
    (tstr.add K a b).len = a.len + b.len ∧
    (tstr.add K a b).as_bytes = a.as_bytes ++ b.as_bytes ∧
    (tstr.add K a b).chrs.length = K := by
  have haA : a.len ≤ M - 1 := ha.2
  have hbA : b.len ≤ M - 1 := hb.2
  have halen : a.as_bytes.length = a.len := as_bytes_length a ha
  have hblen : b.as_bytes.length = b.len := as_bytes_length b hb
  have hcat : (tstr.resize K a).chrs =
      a.len :: (a.as_bytes ++ List.replicate (K - 1 - a.len) 0) :=
    resize_eq K M a (by omega) (by omega) (by omega) (by rw [ha.1]; omega)
  have hsrc : (b.chrs.drop 1).take b.len = b.as_bytes := rfl
  have hw1 : writeBytes (a.as_bytes ++ List.replicate (K - 1 - a.len) 0) a.len
      b.as_bytes =
      a.as_bytes ++ b.as_bytes ++ List.replicate (K - 1 - a.len - b.len) 0 := by
    rw [writeBytes]
    rw [List.take_left' halen, hblen]
    rw [show a.len + b.len = a.as_bytes.length + b.len from by rw [halen],
      List.drop_append, List.drop_replicate]
  have hmod : (a.len + b.len) % 256 = a.len + b.len := Nat.mod_eq_of_lt (by omega)
  have hfinal : (tstr.add K a b).chrs =
      (a.len + b.len) ::
        (a.as_bytes ++ b.as_bytes ++ List.replicate (K - 1 - a.len - b.len) 0) := by
    show (writeBytes (tstr.resize K a).chrs (a.len + 1)
        ((b.chrs.drop 1).take b.len)).set 0 ((a.len + b.len) % 256) = _
    rw [hsrc, hcat, writeBytes_cons, hw1, List.set_cons_zero, hmod]
  refine ⟨?_, ?_, ?_⟩
  · simp [tstr.len, hfinal]
  · rw [tstr.as_bytes, tstr.len, hfinal]
    simp only [List.getD_cons_zero, List.drop_succ_cons, List.drop_zero]
    exact List.take_left' (by rw [List.length_append, halen, hblen])
  · rw [hfinal]
    simp [halen, hblen]
    omega

/-! Claim theorems. -/

/-- C1: for any well-formed `tstr<N>` state and input `s`, `push`
appends exactly the characters of the greedy prefix of `s` that fits in
the remaining capacity (`k = fitCount (N-1) len s`, the number of whole
characters whose cumulative encoded size keeps the total at most `N-1`):
the returned remainder is the unconsumed suffix `s.drop k`, the length
byte becomes the old length plus the byte size of the accepted prefix,
the stored content is the old content followed by the whole encodings of
the accepted characters (never a partial character), the result is again
well-formed, and an empty `s` is returned unchanged with the buffer
untouched. -/
theorem C1_push (N : Nat) (x : tstr N) (s : List Char) (k : Nat)
    (hN : 1 ≤ N) (hN2 : N ≤ 256) (hx : x.invA)
    (hk : k = fitCount (N - 1) x.len s) :
    (tstr.push x s).2 = s.drop k ∧
    (tstr.push x s).1.len = x.len + utf8Len (s.take k) ∧
    (tstr.push x s).1.as_bytes = x.as_bytes ++ utf8Bytes (s.take k) ∧
    (tstr.push x s).1.invA ∧
    (s = [] → tstr.push x s = (x, s)) := by
  subst hk
  obtain ⟨h1, h2, h3, h4⟩ := push_spec x s hN hN2 hx.1 hx.2
  refine ⟨h1, h2, h3, ⟨h4, ?_⟩, ?_⟩
  · rw [h2]
    have := fitCount_le (N - 1) x.len s hx.2
    omega
  · intro hs
    subst hs
    rfl

/-- Witness for C1 at the claim's concrete input: a capacity-7 `str8`
holding "abc", pushed with "defghij", accepts 4 characters, ends with
length 7 and content "abcdefg", and returns remainder "hij". -/
theorem C1_push_witness :
    (1 ≤ 8 ∧ 8 ≤ 256 ∧ (tstr.create 8 sabc).invA ∧
      4 = fitCount (8 - 1) (tstr.create 8 sabc).len sdefghij) ∧
    (tstr.push (tstr.create 8 sabc) sdefghij).2 = sdefghij.drop 4 ∧
    (tstr.push (tstr.create 8 sabc) sdefghij).2 = ['h', 'i', 'j'] ∧
    (tstr.push (tstr.create 8 sabc) sdefghij).1.len = 7 ∧
    (tstr.push (tstr.create 8 sabc) sdefghij).1.as_bytes =
      [97, 98, 99, 100, 101, 102, 103] := by
  have h := C1_push 8 (tstr.create 8 sabc) sdefghij 4 (by decide) (by decide)
    ⟨by decide, by decide⟩ (by decide)
  exact ⟨⟨by decide, by decide, ⟨by decide, by decide⟩, by decide⟩,
    h.1, by decide, by decide, by decide⟩

/-- C2: evaluation of `substr` at the failing input.  On a `str8` holding
"abc" (3 characters), `substr(1, 5)` must, per the claim, clamp `end` to
the character count and return "bc" with length 2; the code instead sets
the length byte to `end - start = 4` without clamping it, so the result
has length byte 4 and reads the two copied bytes 'b','c' followed by two
zero bytes as its content. -/
theorem C2_substr_bug :
    (tstr.substr (tstr.create 8 sabc) 1 5).map
        (fun r => (tstr.len r, tstr.as_bytes r)) = some (4, [98, 99, 0, 0]) ∧
    tstr.charlen (tstr.create 8 sabc) = 3 ∧
    (tstr.substr (tstr.create 8 sabc) 1 5).map tstr.len ≠ some 2 := by
  refine ⟨by decide, by decide, by decide⟩

/-- C3 counterexample: `substr` can produce a value violating Invariant A.
On a `str8` holding "abc", `substr(1, 200)` yields a value whose length
byte is 199, far above the capacity `N - 1 = 7`. -/
theorem C3_substr_cex :
    (tstr.substr (tstr.create 8 sabc) 1 200).map tstr.len = some 199 ∧
    ¬ (199 ≤ tstr.capacity 8) := by
  refine ⟨by decide, by decide⟩

/-- C3 (amended): every listed public operation except `substr`
establishes or preserves Invariant A — the buffer keeps its size, the
length byte equals the byte length of the stored content
(`as_bytes.length = len`), and stays within `0 .. N-1`.  Inputs are
well-formed (`invA` plus valid UTF-8 content); `substr` is excluded, as
`C3_substr_cex` shows it can set the length byte above `N - 1`. -/
theorem C3_invariantA (N : Nat) (x : tstr N) (w : List Char)
    (hN : 2 ≤ N) (hN2 : N ≤ 256) (hx : x.invA) (hw : x.as_bytes = utf8Bytes w) :
    x.as_bytes.length = x.len ∧
    (∀ s, (tstr.create N s).invA) ∧
    (∀ s y, tstr.make? N s = some y → y.invA) ∧
    (tstr.new N).invA ∧
    (∀ s, ((tstr.push x s).1).invA) ∧
    (∀ i c, ((tstr.set x i c).1).invA) ∧
    (∀ n, (tstr.truncate x n).invA) ∧
    (∀ n y, tstr.truncate_bytes x n = some y → y.invA) ∧
    (tstr.clear x).invA ∧
    (tstr.make_ascii_lowercase x).invA ∧
    (tstr.make_ascii_uppercase x).invA ∧
    (tstr.to_ascii_lower x).invA ∧
    (tstr.to_ascii_upper x).invA ∧
    (∀ K, 1 ≤ K → K ≤ 256 → (tstr.resize K x).invA) ∧
    (∀ K (a b : tstr N), K = 2 * N → K ≤ 256 → a.invA → b.invA →
      (tstr.add K a b).invA) := by
  refine ⟨as_bytes_length x hx, fun s => create_invA N s hN hN2, ?_,
    create_invA N [] hN hN2, ?_, fun i c => set_invA x w i c hx hw,
    fun n => truncate_invA x w n hx hw hN2,
    fun n y h => truncate_bytes_invA x n y hx h,
    clear_invA x hx (by omega), ascii_lower_invA x hx (by omega),
    ascii_upper_invA x hx (by omega), ascii_lower_invA x hx (by omega),
    ascii_upper_invA x hx (by omega),
    fun K hK1 hK2 => resize_invA K N x hK1 hK2, ?_⟩
  · intro s y h
    rw [tstr.make?] at h
    by_cases hb : (utf8Bytes s).length ≥ N
    · rw [if_pos hb] at h
      exact Option.noConfusion h
    · rw [if_neg hb] at h
      cases h
      exact create_invA N s hN hN2
  · intro s
    obtain ⟨h1, h2, h3, h4⟩ := push_spec x s (by omega) hN2 hx.1 hx.2
    refine ⟨h4, ?_⟩
    rw [h2]
    have := fitCount_le (N - 1) x.len s hx.2
    omega
  · intro K a b hK hK2 ha hb
    obtain ⟨h1, h2, h3⟩ := add_spec N K a b (by omega) hK hK2 ha hb
    refine ⟨h3, ?_⟩
    rw [h1]
    have := ha.2
    have := hb.2
    omega

/-- Witness for C3 (amended) at `N = 8`, the string "abc". -/
theorem C3_invariantA_witness :
    (2 ≤ 8 ∧ 8 ≤ 256 ∧ (tstr.create 8 sabc).invA ∧
      (tstr.create 8 sabc).as_bytes = utf8Bytes sabc) ∧
    ((tstr.create 8 sabc).as_bytes.length = (tstr.create 8 sabc).len ∧
      (tstr.clear (tstr.create 8 sabc)).invA ∧
      (tstr.truncate (tstr.create 8 sabc) 2).invA ∧
      ((tstr.push (tstr.create 8 sabc) sdefghij).1).invA ∧
      ((tstr.set (tstr.create 8 sabc) 0 'z').1).invA) := by
  have h := C3_invariantA 8 (tstr.create 8 sabc) sabc (by decide) (by decide)
    ⟨by decide, by decide⟩ (by decide)
  exact ⟨⟨by decide, by decide, ⟨by decide, by decide⟩, by decide⟩,
    h.1, h.2.2.2.2.2.2.2.2.1, h.2.2.2.2.2.2.1 2, h.2.2.2.2.1 sdefghij,
    h.2.2.2.2.2.1 0 'z'⟩

/-- C4: for every rung `(M, K)` of the doubling ladder, adding two
well-formed capacity-`M` strings yields a capacity-`K` value whose length
byte is the sum of the operand lengths and whose content is the
byte-for-byte concatenation of the operands' contents; the sum always
fits the destination capacity (no overflow, no truncation), and the
result is well-formed. -/
theorem C4_add (M K : Nat) (a b : tstr M) (hr : (M, K) ∈ rungs)
    (ha : a.invA) (hb : b.invA) :
    (tstr.add K a b).len = a.len + b.len ∧
    (tstr.add K a b).as_bytes = a.as_bytes ++ b.as_bytes ∧
    a.len + b.len ≤ tstr.capacity K ∧
    (tstr.add K a b).invA := by
  have hMK : 1 ≤ M ∧ K = 2 * M ∧ K ≤ 256 := by
    fin_cases hr <;> exact ⟨by omega, by omega, by omega⟩
  obtain ⟨hM, hK, hK2⟩ := hMK
  obtain ⟨h1, h2, h3⟩ := add_spec M K a b hM hK hK2 ha hb
  have hcap : a.len + b.len ≤ tstr.capacity K := by
    rw [tstr.capacity]
    have := ha.2
    have := hb.2
    omega
  exact ⟨h1, h2, hcap, h3, by rw [h1]; rw [tstr.capacity] at hcap; exact hcap⟩

/-- Witness for C4 at the `str8 + str8 → str16` rung with "abc" + "ab". -/
theorem C4_add_witness :
    ((8, 16) ∈ rungs ∧ (tstr.create 8 sabc).invA ∧ (tstr.create 8 sab).invA) ∧
    (tstr.add 16 (tstr.create 8 sabc) (tstr.create 8 sab)).len =
      (tstr.create 8 sabc).len + (tstr.create 8 sab).len ∧
    (tstr.add 16 (tstr.create 8 sabc) (tstr.create 8 sab)).as_bytes =
      [97, 98, 99, 97, 98] := by
  have h := C4_add 8 16 (tstr.create 8 sabc) (tstr.create 8 sab) (by decide)
    ⟨by decide, by decide⟩ ⟨by decide, by decide⟩
  exact ⟨⟨by decide, ⟨by decide, by decide⟩, ⟨by decide, by decide⟩⟩,
    h.1, by decide⟩

/-- C5 counterexample: the round trip does not reproduce `x` exactly
under the derived (whole-buffer) equality.  Truncating "abc" to 2
characters leaves the stale byte 'c' at offset 3; resizing to capacity 16
and back zeroes it, so the round-tripped value differs from `x` even
though `16` is a supported capacity with `16 ≥ len + 1`. -/
theorem C5_roundtrip_cex :
    tstr.len (tstr.truncate (tstr.create 8 sabc) 2) + 1 ≤ 16 ∧
    tstr.resize 8 (tstr.resize 16 (tstr.truncate (tstr.create 8 sabc) 2)) ≠
      tstr.truncate (tstr.create 8 sabc) 2 := by
  refine ⟨by decide, by decide⟩

/-- C5 (amended): for a well-formed `x : tstr<N>` and any `M` with
`M ≥ x.len + 1`, resizing to `M` and back to `N` reproduces `x`'s length
byte and stored content exactly; full buffer equality (the derived
`PartialEq`) can still fail because bytes beyond the content are zeroed
by `resize` while `x` may hold stale bytes there (`C5_roundtrip_cex`). -/
theorem C5_resize_roundtrip (N M : Nat) (x : tstr N) (hN1 : 1 ≤ N)
    (hN2 : N ≤ 256) (hx : x.invA) (hM : x.len + 1 ≤ M) :
    (tstr.resize N (tstr.resize M x)).len = x.len ∧
    (tstr.resize N (tstr.resize M x)).as_bytes = x.as_bytes := by
  have h255 : x.len ≤ 255 := by
    have := hx.2
    omega
  have hxlen : x.len + 1 ≤ x.chrs.length := by
    rw [hx.1]
    have := hx.2
    omega
  have r1len := resize_len M N x (by omega) h255 (by omega) hxlen
  have r1ab := resize_as_bytes M N x (by omega) h255 (by omega) hxlen
  have r1chrs := resize_chrs_length M N x (by omega) h255 (by omega) hxlen
  have h2len : (tstr.resize M x).len + 1 ≤ (tstr.resize M x).chrs.length := by
    rw [r1len, r1chrs]
    omega
  have r2len := resize_len N M (tstr.resize M x) (by omega)
    (by rw [r1len]; exact h255) (by rw [r1len]; exact hx.2) h2len
  have r2ab := resize_as_bytes N M (tstr.resize M x) (by omega)
    (by rw [r1len]; exact h255) (by rw [r1len]; exact hx.2) h2len
  exact ⟨by rw [r2len, r1len], by rw [r2ab, r1ab]⟩

/-- Witness for C5 (amended) at "abc" in `str8`, `M = 16`. -/
theorem C5_resize_roundtrip_witness :
    (1 ≤ 8 ∧ 8 ≤ 256 ∧ (tstr.create 8 sabc).invA ∧
      (tstr.create 8 sabc).len + 1 ≤ 16) ∧
    (tstr.resize 8 (tstr.resize 16 (tstr.create 8 sabc))).len =
      (tstr.create 8 sabc).len ∧
    (tstr.resize 8 (tstr.resize 16 (tstr.create 8 sabc))).as_bytes =
      (tstr.create 8 sabc).as_bytes := by
  have h := C5_resize_roundtrip 8 16 (tstr.create 8 sabc) (by decide) (by decide)
    ⟨by decide, by decide⟩ (by decide)
  exact ⟨⟨by decide, by decide, ⟨by decide, by decide⟩, by decide⟩, h.1, h.2⟩

/-- C6: `make` panics exactly when the input's byte length reaches `N`
(`make? = none`), while `create` is total and, for such long inputs,
stores precisely the first `N - 1` bytes of the input (a prefix), with
length byte `N - 1`; `create` always yields a well-formed value. -/
theorem C6_make_create (N : Nat) (s : List Char) (hN : 2 ≤ N) (hN2 : N ≤ 256) :
    (tstr.make? N s = none ↔ N ≤ (utf8Bytes s).length) ∧
    (N ≤ (utf8Bytes s).length →
      (tstr.create N s).as_bytes = (utf8Bytes s).take (N - 1) ∧
      (tstr.create N s).len = N - 1) ∧
    (tstr.create N s).invA := by
  refine ⟨?_, ?_, create_invA N s hN hN2⟩
  · rw [tstr.make?]
    by_cases h : (utf8Bytes s).length ≥ N
    · simp [h]
    · simp [h]
  · intro h
    have hmin : min (N - 1) (utf8Bytes s).length = N - 1 := by omega
    exact ⟨by rw [create_as_bytes N s hN hN2, hmin],
      by rw [create_len N s hN hN2, hmin]⟩

/-- Witness for C6 at `N = 4` and the 7-byte input "defghij": `make`
panics, `create` stores the 3-byte prefix "def". -/
theorem C6_make_create_witness :
    (2 ≤ 4 ∧ 4 ≤ 256) ∧
    tstr.make? 4 sdefghij = none ∧
    (tstr.create 4 sdefghij).as_bytes = [100, 101, 102] ∧
    (tstr.create 4 sdefghij).len = 3 := by
  have h := C6_make_create 4 sdefghij (by decide) (by decide)
  exact ⟨⟨by decide, by decide⟩, h.1.mpr (by decide), by decide, by decide⟩

/-- C7: `set i c` succeeds exactly when `i` is a valid character index of
the stored content and the replacement character's encoded width equals
the replaced character's; on failure the string is left completely
unchanged. -/
theorem C7_set (N : Nat) (x : tstr N) (w : List Char) (i : Nat) (c : Char)
    (hw : x.as_bytes = utf8Bytes w) :
    ((tstr.set x i c).2 = true ↔
      ∃ rc, w.get? i = some rc ∧ utf8Size c = utf8Size rc) ∧
    ((tstr.set x i c).2 = false → (tstr.set x i c).1 = x) :=
  ⟨set_success_iff x w i c hw, set_fail_unchanged x w i c hw⟩

/-- Witness for C7 at the claim's concrete input: replacing the 1-byte
ASCII character at position 0 of "abc" with the 2-byte 'λ' fails and
leaves the string unchanged. -/
theorem C7_set_witness :
    (tstr.create 8 sabc).as_bytes = utf8Bytes sabc ∧
    (tstr.set (tstr.create 8 sabc) 0 'λ').2 = false ∧
    (tstr.set (tstr.create 8 sabc) 0 'λ').1 = tstr.create 8 sabc := by
  have h := C7_set 8 (tstr.create 8 sabc) sabc 0 'λ' (by decide)
  exact ⟨by decide, by decide, h.2 (by decide)⟩

/-- C8: `truncate n` keeps exactly the first `n` characters of the
content (a no-op when `n` exceeds the character count), and applying it
twice with the same `n` equals applying it once. -/
theorem C8_truncate (N : Nat) (x : tstr N) (w : List Char) (n : Nat)
    (hx : x.invA) (hw : x.as_bytes = utf8Bytes w) (hN2 : N ≤ 256) :
    tstr.truncate (tstr.truncate x n) n = tstr.truncate x n ∧
    (tstr.truncate x n).as_bytes = utf8Bytes (w.take n) ∧
    (tstr.truncate x n).len = utf8Len (w.take n) ∧
    (w.length < n → tstr.truncate x n = x) := by
  obtain ⟨h1, h2, h3, h4⟩ := truncate_spec x w n hx hw hN2
  have hx1 : (tstr.truncate x n).invA := truncate_invA x w n hx hw hN2
  have hidem := truncate_spec (tstr.truncate x n) (w.take n) n hx1 (by rw [h1]) hN2
  refine ⟨hidem.2.2.2 ?_, h1, h2, fun h => h4 (by omega)⟩
  rw [List.length_take]
  omega

/-- Witness for C8 at "abc" in `str8`, `n = 2`. -/
theorem C8_truncate_witness :
    ((tstr.create 8 sabc).invA ∧
      (tstr.create 8 sabc).as_bytes = utf8Bytes sabc ∧ 8 ≤ 256) ∧
    tstr.truncate (tstr.truncate (tstr.create 8 sabc) 2) 2 =
      tstr.truncate (tstr.create 8 sabc) 2 ∧
    (tstr.truncate (tstr.create 8 sabc) 2).as_bytes = [97, 98] := by
  have h := C8_truncate 8 (tstr.create 8 sabc) sabc 2
    ⟨by decide, by decide⟩ (by decide) (by decide)
  exact ⟨⟨⟨by decide, by decide⟩, by decide, by decide⟩, h.1, by decide⟩

/-- C9: the explicit-failure entry points report overflow as a typed
failure with no partial mutation: `try_make` returns `Err` carrying the
original input (no value constructed) exactly when the input exceeds the
capacity, and otherwise `Ok`; the `core::fmt::Write` `write_str` either
fails leaving the receiver unmodified, or succeeds appending the whole
fragment. -/
theorem C9_error_paths (N : Nat) (x : tstr N) (s : List Char)
    (hN : 2 ≤ N) (hN2 : N ≤ 256) (hx : x.invA) :
    ((utf8Bytes s).length > N - 1 → tstr.try_make N s = Except.error s) ∧
    ((utf8Bytes s).length ≤ N - 1 →
      tstr.try_make N s = Except.ok (tstr.create N s)) ∧
    ((tstr.write_str x s).2 = false → (tstr.write_str x s).1 = x) ∧
    ((tstr.write_str x s).2 = true →
      (tstr.write_str x s).1.as_bytes = x.as_bytes ++ utf8Bytes s ∧
      (tstr.write_str x s).1.len = x.len + utf8Len s) := by
  refine ⟨?_, ?_, ?_, ?_⟩
  · intro h
    rw [tstr.try_make, if_pos h]
  · intro h
    rw [tstr.try_make, if_neg (by omega)]
  · intro h
    rw [tstr.write_str] at h ⊢
    by_cases hov : utf8Len s + x.len > N - 1
    · rw [if_pos hov]
    · rw [if_neg hov] at h
      simp at h
  · intro h
    rw [tstr.write_str] at h ⊢
    by_cases hov : utf8Len s + x.len > N - 1
    · rw [if_pos hov] at h
      simp at h
    · rw [if_neg hov] at h ⊢
      obtain ⟨h1, h2, h3, h4⟩ := push_spec x s (by omega) hN2 hx.1 hx.2
      have hall : fitCount (N - 1) x.len s = s.length :=
        fitCount_all (N - 1) x.len s (by omega)
      rw [hall, List.take_length] at h2 h3
      exact ⟨h3, h2⟩

/-- Witness for C9 at "abc" in `str8` with the 7-byte fragment
"defghij": `try_make` succeeds (7 ≤ 7) and `write_str` rejects
(7 + 3 > 7) leaving the receiver untouched. -/
theorem C9_error_paths_witness :
    (2 ≤ 8 ∧ 8 ≤ 256 ∧ (tstr.create 8 sabc).invA) ∧
    tstr.try_make 8 sdefghij = Except.ok (tstr.create 8 sdefghij) ∧
    (tstr.write_str (tstr.create 8 sabc) sdefghij).2 = false ∧
    (tstr.write_str (tstr.create 8 sabc) sdefghij).1 = tstr.create 8 sabc := by
  have h := C9_error_paths 8 (tstr.create 8 sabc) sdefghij (by decide)
    (by decide) ⟨by decide, by decide⟩
  exact ⟨⟨by decide, by decide, ⟨by decide, by decide⟩⟩,
    h.2.1 (by decide), by decide, h.2.2.1 (by decide)⟩

/-- C10: the derived equality on `tstr<N>` compares the entire `N`-byte
buffer (it is exactly equality of the `chrs` field), and there exist two
values with identical logical content — equal length byte and equal
stored bytes — that still compare unequal: a fresh "ab" versus "abc"
truncated to 2 characters, which keeps the stale byte 'c' past the
logical end. -/
theorem C10_derived_eq :
    (∀ x y : tstr 8, x = y ↔ x.chrs = y.chrs) ∧
    tstr.len (tstr.truncate (tstr.create 8 sabc) 2) =
      tstr.len (tstr.create 8 sab) ∧
    tstr.as_bytes (tstr.truncate (tstr.create 8 sabc) 2) =
      tstr.as_bytes (tstr.create 8 sab) ∧
    tstr.truncate (tstr.create 8 sabc) 2 ≠ tstr.create 8 sab := by
  refine ⟨?_, by decide, by decide, by decide⟩
  intro x y
  constructor
  · intro h
    rw [h]
  · intro h
    cases x
    cases y
    cases h
    rfl
